import Mathlib

/-!
Verification of the `naive-stm` software transactional memory library.

The Rust sources are shallowly embedded: shared containers are explicit
`VersionedValue` records, per-transaction working copies (`TxCell`,
`TxQueue`, `TxMap`) are records whose fields mirror the Rust structs, and
every fallible operation returns `Except (Error Unit)` mirroring
`Result<T>`.  `BTreeMap` / `BTreeSet` are modelled as key-sorted
association lists / key-sorted lists.
-/

namespace NaiveStm

/-- `Version(usize)` from `variable/mod.rs`; `increment` adds one. -/
abbrev Version := Nat

/-- `StmVarId(usize)` from `variable/mod.rs`. -/
abbrev StmVarId := Nat

/-- The error enum of the crate root (`Error<E>`); `ConcurrentUpdate` is the
internal retry signal used by `transaction.rs` and the container reads. -/
inductive Error (E : Type) where
  | ConcurrentUpdate
  | TransactionVariableIsInUse (varId : StmVarId)
  | TooManyTransactionRetryAttempts (attempts : Nat)
  | TransactionAbort (e : E)
  deriving DecidableEq

/-- `Result<T, E> = Result<T, Error<E>>`; containers use `E = ()`. -/
abbrev StmResult (T : Type) := Except (Error Unit) T

/-- `VersionedValue<T>`: the commit unit living behind the RW-lock. -/
structure VersionedValue (T : Type) where
  version : Version
  data : T
  deriving DecidableEq

/-! ### Sorted association lists: the model of `BTreeMap<K, V>` -/

variable {K V : Type} [LinearOrder K]

/-- `BTreeMap::insert` on a key-sorted association list: replaces the entry
on an equal key, otherwise inserts in order. -/
def btInsert (k : K) (v : V) : List (K × V) → List (K × V)
  | [] => [(k, v)]
  | (k', v') :: rest =>
    if k < k' then (k, v) :: (k', v') :: rest
    else if k = k' then (k, v) :: rest
    else (k', v') :: btInsert k v rest

/-- `BTreeMap::remove` on a key-sorted association list. -/
def btRemove (k : K) : List (K × V) → List (K × V)
  | [] => []
  | (k', v') :: rest => if k = k' then rest else (k', v') :: btRemove k rest

/-- `BTreeMap::get` (first entry with a matching key). -/
def btGet (k : K) : List (K × V) → Option V
  | [] => none
  | (k', v') :: rest => if k = k' then some v' else btGet k rest

/-- `BTreeMap::contains_key`. -/
def btContains (k : K) (l : List (K × V)) : Bool := (btGet k l).isSome

/-- `BTreeMap::append self other`: move every entry of `other` into `self`,
entries of `other` overwriting on equal keys. -/
def btAppend (m : List (K × V)) (o : List (K × V)) : List (K × V) :=
  o.foldl (fun acc p => btInsert p.1 p.2 acc) m

/-- Iterated `BTreeMap::remove`, one call per key of the set `s`
(the commit loop over the tombstones). -/
def btRemoveAll (s : List K) (m : List (K × V)) : List (K × V) :=
  s.foldl (fun acc k => btRemove k acc) m

/-! ### Sorted key lists: the model of `BTreeSet<K>` -/

/-- `BTreeSet::insert` on a sorted list (no duplicate on an equal key). -/
def bsInsert (k : K) : List K → List K
  | [] => [k]
  | k' :: rest =>
    if k < k' then k :: k' :: rest
    else if k = k' then k' :: rest
    else k' :: bsInsert k rest

/-- `BTreeSet::remove` on a sorted list. -/
def bsRemove (k : K) : List K → List K
  | [] => []
  | k' :: rest => if k = k' then rest else k' :: bsRemove k rest

/-- `BTreeSet::contains`. -/
def bsContains (k : K) (s : List K) : Bool := decide (k ∈ s)

/-- Keys of an association list appear in strictly increasing order. -/
def KeysSorted (l : List (K × V)) : Prop :=
  l.Pairwise (fun a b => a.1 < b.1)

/-- Elements of a key list appear in strictly increasing order. -/
def SetSorted (s : List K) : Prop := s.Pairwise (· < ·)

/-! ### `StmCell` / `TxCell` (`variable/cell.rs`) -/

/-- `TxCell<T>`: the shared half is passed explicitly to each operation. -/
structure TxCell (T : Type) where
  initial_version : Version
  tx_value : T
  write_tx_value : Bool
  deriving DecidableEq

/-- `StmCell::tx_var`: capture the version and clone the value. -/
def TxCell.open (shared : VersionedValue T) : TxCell T :=
  { initial_version := shared.version
    tx_value := shared.data
    write_tx_value := false }

/-- `TxCell::lock` takes a write lock exactly when `write_tx_value` is set. -/
def TxCell.lockIsWrite (tv : TxCell T) : Bool := tv.write_tx_value

/-- `LockedTxCell::can_commit`. -/
def TxCell.canCommit (tv : TxCell T) (shared : VersionedValue T) : Bool :=
  tv.initial_version == shared.version

/-- `TxCell::lock` followed by `LockedTxCell::commit`: a read lock is a
no-op; a write lock bumps the version and swaps the value in. -/
def TxCell.commitLocked (tv : TxCell T) (shared : VersionedValue T) :
    VersionedValue T :=
  if tv.lockIsWrite then
    { version := shared.version + 1, data := tv.tx_value }
  else shared

/-! ### `StmQueue` / `TxQueue` (`variable/queue.rs`) -/

/-- `TxQueue<T>`: front cursor into the shared deque plus push buffer. -/
structure TxQueue (T : Type) where
  initial_version : Version
  front_position : Nat
  push_back_items : List T
  deriving DecidableEq

/-- `StmQueue::tx_var`. -/
def TxQueue.open (shared : VersionedValue (List T)) : TxQueue T :=
  { initial_version := shared.version
    front_position := 0
    push_back_items := [] }

/-- `TxQueue::read_queue`: take the read lock, fail with `ConcurrentUpdate`
when the shared version moved since the transaction variable was opened. -/
def TxQueue.read_queue (tv : TxQueue T) (shared : VersionedValue (List T)) :
    StmResult (VersionedValue (List T)) :=
  if tv.initial_version ≠ shared.version then .error .ConcurrentUpdate
  else .ok shared

/-- `TxQueue::push`. -/
def TxQueue.push (tv : TxQueue T) (item : T) : TxQueue T :=
  { tv with push_back_items := tv.push_back_items ++ [item] }

/-- `TxQueue::pop`: version check, clone the element under the cursor and
advance it, otherwise pop the front of the push buffer. -/
def TxQueue.pop (tv : TxQueue T) (shared : VersionedValue (List T)) :
    StmResult (Option T × TxQueue T) := do
  let queue ← tv.read_queue shared
  let item := queue.data[tv.front_position]?
  let tv := if item.isSome then
    { tv with front_position := tv.front_position + 1 } else tv
  match item with
  | some x => pure (some x, tv)
  | none =>
    match tv.push_back_items with
    | [] => pure (none, tv)
    | y :: rest => pure (some y, { tv with push_back_items := rest })

/-- `TxQueue::lock` takes a write lock exactly when the delta is non-empty. -/
def TxQueue.lockIsWrite (tv : TxQueue T) : Bool :=
  tv.front_position > 0 || !tv.push_back_items.isEmpty

/-- `LockedTxQueue::can_commit`. -/
def TxQueue.canCommit (tv : TxQueue T) (shared : VersionedValue (List T)) :
    Bool :=
  tv.initial_version == shared.version

/-- `TxQueue::lock` followed by `LockedTxQueue::commit`: a read lock is a
no-op; a write lock bumps the version, pops `front_position` items off the
front and appends the push buffer. -/
def TxQueue.commitLocked (tv : TxQueue T) (shared : VersionedValue (List T)) :
    VersionedValue (List T) :=
  if tv.lockIsWrite then
    { version := shared.version + 1
      data := shared.data.drop tv.front_position ++ tv.push_back_items }
  else shared

/-- One `next` of the queue iterator (`impl Iterator for Iter`): the item at
`cursor + front_position` of the shared data, falling back to the push
buffer at the index reduced by the shared length; the cursor advances only
when an item is produced. -/
def TxQueue.iterNext (tv : TxQueue T) (shared : VersionedValue (List T))
    (cursor : Nat) : StmResult (Option (T × Nat)) := do
  let position := cursor + tv.front_position
  let queue ← tv.read_queue shared
  let queue_len := queue.data.length
  let item := queue.data[position]?
  let position := if queue_len ≤ position then position - queue_len
    else position
  let item := item.orElse fun _ => tv.push_back_items[position]?
  pure (item.map fun x => (x, cursor + 1))

/-- Run the queue iterator from `cursor`, collecting at most `fuel` items. -/
def TxQueue.iterCollect (tv : TxQueue T) (shared : VersionedValue (List T)) :
    Nat → Nat → StmResult (List T)
  | _, 0 => .ok []
  | cursor, fuel + 1 =>
    match tv.iterNext shared cursor with
    | .error e => .error e
    | .ok none => .ok []
    | .ok (some (x, cursor')) =>
      (tv.iterCollect shared cursor' fuel).map (x :: ·)

/-! ### `StmMap` / `TxMap` (`variable/map.rs`) -/

/-- `TxMap<K, V>`: overlay of insertions plus tombstone set. -/
structure TxMap (K V : Type) where
  initial_version : Version
  tx_map : List (K × V)
  tx_removed_keys : List K
  deriving DecidableEq

/-- `StmMap::tx_var`. -/
def TxMap.open (shared : VersionedValue (List (K × V))) : TxMap K V :=
  { initial_version := shared.version
    tx_map := []
    tx_removed_keys := [] }

/-- `TxMap::read_map`: read lock plus version check. -/
def TxMap.read_map (tv : TxMap K V) (shared : VersionedValue (List (K × V))) :
    StmResult (VersionedValue (List (K × V))) :=
  if tv.initial_version ≠ shared.version then .error .ConcurrentUpdate
  else .ok shared

/-- `TxMap::insert`. -/
def TxMap.insert (tv : TxMap K V) (k : K) (v : V) : TxMap K V :=
  { tv with
    tx_removed_keys := bsRemove k tv.tx_removed_keys
    tx_map := btInsert k v tv.tx_map }

/-- `TxMap::remove`. -/
def TxMap.remove (tv : TxMap K V) (k : K) : TxMap K V :=
  { tv with
    tx_map := btRemove k tv.tx_map
    tx_removed_keys := bsInsert k tv.tx_removed_keys }

/-- `TxMap::get`: overlay first, then the tombstones, then the shared map
under a version check. -/
def TxMap.get (tv : TxMap K V) (shared : VersionedValue (List (K × V)))
    (k : K) : StmResult (Option V) :=
  match btGet k tv.tx_map with
  | some v => .ok (some v)
  | none =>
    if bsContains k tv.tx_removed_keys then .ok none
    else do
      let m ← tv.read_map shared
      pure (btGet k m.data)

/-- `TxMap::get_mut`: like `get`, but a hit in the shared map clones the
entry into the overlay (promotion); the promoted value is returned together
with the updated transaction variable. -/
def TxMap.get_mut (tv : TxMap K V) (shared : VersionedValue (List (K × V)))
    (k : K) : StmResult (Option V × TxMap K V) :=
  if btContains k tv.tx_map then .ok (btGet k tv.tx_map, tv)
  else if bsContains k tv.tx_removed_keys then .ok (none, tv)
  else do
    let m ← tv.read_map shared
    match btGet k m.data with
    | some v => pure (some v, { tv with tx_map := btInsert k v tv.tx_map })
    | none => pure (none, tv)

/-- `TxMap::contains_key`. -/
def TxMap.contains_key (tv : TxMap K V)
    (shared : VersionedValue (List (K × V))) (k : K) : StmResult Bool :=
  if btContains k tv.tx_map then .ok true
  else if bsContains k tv.tx_removed_keys then .ok false
  else do
    let m ← tv.read_map shared
    pure (btContains k m.data)

/-- `TxMap::first_key`: minimum of the first non-tombstoned shared key and
the first overlay key. -/
def TxMap.first_key (tv : TxMap K V)
    (shared : VersionedValue (List (K × V))) : StmResult (Option K) := do
  let m ← tv.read_map shared
  let map_min := (m.data.find? fun p => !bsContains p.1 tv.tx_removed_keys).map
    Prod.fst
  let tx_min := (tv.tx_map.head?).map Prod.fst
  pure (match map_min, tx_min with
    | some a, some b => some (min a b)
    | some a, none => some a
    | none, some b => some b
    | none, none => none)

/-- `TxMap::lock` takes a write lock exactly when the delta is non-empty. -/
def TxMap.lockIsWrite (tv : TxMap K V) : Bool :=
  !(tv.tx_map.isEmpty && tv.tx_removed_keys.isEmpty)

/-- `LockedTxMap::can_commit`. -/
def TxMap.canCommit (tv : TxMap K V)
    (shared : VersionedValue (List (K × V))) : Bool :=
  tv.initial_version == shared.version

/-- `TxMap::lock` followed by `LockedTxMap::commit`: a read lock is a no-op;
a write lock bumps the version, removes every tombstoned key and then
appends the overlay (overlay entries overwrite). -/
def TxMap.commitLocked (tv : TxMap K V)
    (shared : VersionedValue (List (K × V))) :
    VersionedValue (List (K × V)) :=
  if tv.lockIsWrite then
    { version := shared.version + 1
      data := btAppend (btRemoveAll tv.tx_removed_keys shared.data) tv.tx_map }
  else shared

/-- The `(Excluded cursor, Unbounded)` range of a key-sorted list:
`none` is `Unbounded`, `some k` is `Excluded k`. -/
def afterCursor (c : Option K) (l : List (K × V)) : List (K × V) :=
  match c with
  | none => l
  | some k => l.filter fun p => decide (k < p.1)

/-- One `next` of the map iterator (`impl Iterator for Iter`): the minimum
of the first non-tombstoned shared entry past the cursor and the first
overlay entry past the cursor, the overlay winning ties; the cursor moves
to `Excluded` of the produced key. -/
def TxMap.iterNext (tv : TxMap K V) (shared : VersionedValue (List (K × V)))
    (c : Option K) : StmResult (Option ((K × V) × Option K)) := do
  let m ← tv.read_map shared
  let map_min := (afterCursor c m.data).find? fun p =>
    !bsContains p.1 tv.tx_removed_keys
  let tx_min := (afterCursor c tv.tx_map).head?
  let min_kv : Option (K × V) :=
    match map_min, tx_min with
    | some a, some b => some (if a.1 < b.1 then a else b)
    | some a, none => some a
    | none, some b => some b
    | none, none => none
  pure (min_kv.map fun p => (p, some p.1))

/-- Run the map iterator from cursor `c`, collecting at most `fuel` items. -/
def TxMap.iterCollect (tv : TxMap K V)
    (shared : VersionedValue (List (K × V))) :
    Option K → Nat → StmResult (List (K × V))
  | _, 0 => .ok []
  | c, fuel + 1 =>
    match tv.iterNext shared c with
    | .error e => .error e
    | .ok none => .ok []
    | .ok (some (p, c')) => (tv.iterCollect shared c' fuel).map (p :: ·)

/-- The ordered-by-key merge of the shared entries (left) with the overlay
entries (right), the overlay taking precedence on equal keys.  This is the
spec's description of `TxMap::iter` (§4.4), stated independently of the
cursor-driven iterator. -/
def mergeOverlay : List (K × V) → List (K × V) → List (K × V)
  | [], ys => ys
  | x :: xs, [] => x :: xs
  | x :: xs, y :: ys =>
    if x.1 < y.1 then x :: mergeOverlay xs (y :: ys)
    else if y.1 < x.1 then y :: mergeOverlay (x :: xs) ys
    else y :: mergeOverlay xs ys
termination_by xs ys => xs.length + ys.length

/-! ### Transaction executor (`transaction.rs`) -/

/-- `CommitStatus` from `transaction.rs`. -/
inductive CommitStatus where
  | Success
  | Fail
  deriving DecidableEq

/-- A variable tracked by a transaction at commit time, paired with the
current state of its shared container. -/
inductive VarPair (T K V : Type) where
  | cell (tv : TxCell T) (shared : VersionedValue T)
  | queue (tv : TxQueue T) (shared : VersionedValue (List T))
  | map (tv : TxMap K V) (shared : VersionedValue (List (K × V)))
  deriving DecidableEq

/-- `LockedTxVar::can_commit` dispatched over the three container kinds. -/
def VarPair.canCommit : VarPair T K V → Bool
  | .cell tv shared => tv.canCommit shared
  | .queue tv shared => tv.canCommit shared
  | .map tv shared => tv.canCommit shared

/-- `LockedTxVar::commit` dispatched over the three container kinds; the
result carries the new state of the shared container. -/
def VarPair.commitLocked : VarPair T K V → VarPair T K V
  | .cell tv shared => .cell tv (tv.commitLocked shared)
  | .queue tv shared => .queue tv (tv.commitLocked shared)
  | .map tv shared => .map tv (tv.commitLocked shared)

/-- `Tx::commit`: lock every registry entry in ascending id order, validate
all of them, and only if every validation passes apply every commit; on any
validation failure nothing is written and `Fail` is returned. -/
def Tx.commit (vars : List (VarPair T K V)) :
    CommitStatus × List (VarPair T K V) :=
  if vars.all VarPair.canCommit then
    (.Success, vars.map VarPair.commitLocked)
  else (.Fail, vars)

/-- The outcome of one attempt of the runner loop body: either the closure
returned an error, or it returned a value and `Tx::commit` reported the
given status. -/
inductive AttemptOutcome (T E : Type) where
  | closureErr (e : Error E)
  | closureOk (t : T) (commit : CommitStatus)
  deriving DecidableEq

/-- The loop of `Tx::run_with_options` from iteration `attempt` on.  `f`
gives the outcome of each attempt (the closure is `FnMut`, so outcomes may
differ between attempts).  `Err(ConcurrentUpdate)` from the closure and a
failed commit continue the loop; any other closure error and a successful
commit return immediately; an exhausted budget yields
`TooManyTransactionRetryAttempts { attempts }`.  The inter-attempt sleep
has no effect on the result and is not modelled. -/
def runFrom (attempts : Nat) (f : Nat → AttemptOutcome T E) (attempt : Nat) :
    Except (Error E) T :=
  if _h : attempt < attempts then
    match f attempt with
    | .closureErr .ConcurrentUpdate => runFrom attempts f (attempt + 1)
    | .closureErr e => .error e
    | .closureOk t .Success => .ok t
    | .closureOk _ .Fail => runFrom attempts f (attempt + 1)
  else .error (.TooManyTransactionRetryAttempts attempts)
termination_by attempts - attempt

/-- `Tx::run_with_options`: the retry loop starting at attempt `0`. -/
def Tx.runWithOptions (attempts : Nat) (f : Nat → AttemptOutcome T E) :
    Except (Error E) T :=
  runFrom attempts f 0

/-! ### Registry, `Tx::track` and `TxRef::drop` (`transaction.rs`) -/

/-- A type-erased `Box<dyn TxVar>` in the registry. -/
inductive TxVarBox (T K V : Type) where
  | cell (tv : TxCell T)
  | queue (tv : TxQueue T)
  | map (tv : TxMap K V)
  deriving DecidableEq

/-- `TrackedVar` from `transaction.rs`. -/
inductive TrackedVar (T K V : Type) where
  | InUse
  | Pending (v : TxVarBox T K V)
  deriving DecidableEq

/-- The transaction registry `BTreeMap<StmVarId, TrackedVar>`. -/
abbrev Registry (T K V : Type) := List (StmVarId × TrackedVar T K V)

/-- `Tx::track`: `fresh` is the `TxVar` that `var.tx_var()` would open.  A
vacant entry registers `InUse` and hands out the fresh variable; an `InUse`
entry fails with `TransactionVariableIsInUse`; a `Pending` entry is reused
(the downcast in the source always succeeds because a `VarId` identifies
one concrete type). -/
def Tx.track (vars : Registry T K V) (var_id : StmVarId)
    (fresh : TxVarBox T K V) :
    StmResult (TxVarBox T K V × Registry T K V) :=
  match btGet var_id vars with
  | none => .ok (fresh, btInsert var_id .InUse vars)
  | some .InUse => .error (.TransactionVariableIsInUse var_id)
  | some (.Pending tv) => .ok (tv, btInsert var_id .InUse vars)

/-- `impl Drop for TxRef`: park the owned (possibly mutated) `TxVar` back
into the registry as `Pending`. -/
def TxRef.drop (vars : Registry T K V) (var_id : StmVarId)
    (tv : TxVarBox T K V) : Registry T K V :=
  btInsert var_id (.Pending tv) vars

/-! ### Sequences of map operations (for the overlay/tombstone invariant) -/

/-- One user-visible `TxMap` operation. -/
inductive MapOp (K V : Type) where
  | insert (k : K) (v : V)
  | remove (k : K)
  | getMut (k : K)
  | get (k : K)
  | containsKey (k : K)
  | firstKey
  | iter

/-- Apply one operation to the transaction variable.  Read-only operations
(`get`, `contains_key`, `first_key`, `iter`) take `&self` and cannot change
it; `get_mut` may promote a shared entry into the overlay. -/
def TxMap.applyOp (tv : TxMap K V) (shared : VersionedValue (List (K × V))) :
    MapOp K V → TxMap K V
  | .insert k v => tv.insert k v
  | .remove k => tv.remove k
  | .getMut k =>
    match tv.get_mut shared k with
    | .ok (_, tv') => tv'
    | .error _ => tv
  | .get _ => tv
  | .containsKey _ => tv
  | .firstKey => tv
  | .iter => tv

/-- Apply a sequence of operations. -/
def TxMap.applyOps (tv : TxMap K V) (shared : VersionedValue (List (K × V)))
    (ops : List (MapOp K V)) : TxMap K V :=
  ops.foldl (fun acc op => acc.applyOp shared op) tv

/-! ### Helper lemmas -/

theorem btGet_btInsert_self (k : K) (v : V) (l : List (K × V)) :
    btGet k (btInsert k v l) = some v := by
  induction l with
  | nil => simp [btInsert, btGet]
  | cons p rest ih =>
    by_cases h1 : k < p.1
    · simp [btInsert, h1, btGet]
    · by_cases h2 : k = p.1
      · simp [btInsert, h1, h2, btGet]
      · simp [btInsert, btGet, h1, h2, ih]

/-! ### Claim theorems -/

/-- C10: `Tx::run_with_options` with `attempts == 0` never enters the loop
body: the closure is not invoked (the result is the same for every closure)
and the result is `TooManyTransactionRetryAttempts { attempts: 0 }`. -/
theorem Tx.runWithOptions_zero_attempts (T E : Type)
    (f g : Nat → AttemptOutcome T E) :
    Tx.runWithOptions 0 f =
      Except.error (Error.TooManyTransactionRetryAttempts 0) ∧
    Tx.runWithOptions 0 f = Tx.runWithOptions 0 g := by
  have hzero : ∀ h : Nat → AttemptOutcome T E,
      Tx.runWithOptions 0 h =
        Except.error (Error.TooManyTransactionRetryAttempts 0) := by
    intro h
    rw [Tx.runWithOptions, runFrom]
    simp
  exact ⟨hzero f, (hzero f).trans (hzero g).symm⟩

/-- C1: if any tracked variable fails validation, `Tx::commit` returns
`Fail` and the registry (in particular every shared container's version
and data) is returned exactly as it was: no `commit()` is applied to any
variable. -/
theorem Tx.commit_fail_no_side_effects {T K V : Type} [LinearOrder K]
    (vars : List (VarPair T K V)) (v : VarPair T K V)
    (hv : v ∈ vars) (hfail : v.canCommit = false) :
    Tx.commit vars = (CommitStatus.Fail, vars) := by
  have hall : vars.all VarPair.canCommit = false := by
    by_contra h
    have htrue : vars.all VarPair.canCommit = true := by
      cases hres : vars.all VarPair.canCommit
      · exact absurd hres h
      · rfl
    have := List.all_eq_true.mp htrue v hv
    rw [hfail] at this
    exact Bool.false_ne_true this
  simp [Tx.commit, hall]

/-- C1 witness: a one-variable registry whose cell was opened at version 0
while the shared cell is now at version 1. -/
theorem Tx.commit_fail_no_side_effects_witness :
    Tx.commit (T := Nat) (K := Nat) (V := Nat)
      [VarPair.cell ⟨0, 5, true⟩ ⟨1, 9⟩] =
      (CommitStatus.Fail, [VarPair.cell ⟨0, 5, true⟩ ⟨1, 9⟩]) :=
  Tx.commit_fail_no_side_effects _ (VarPair.cell ⟨0, 5, true⟩ ⟨1, 9⟩)
    (List.mem_singleton.mpr rfl) (by decide)

/-- C3: for each locked container kind, `can_commit()` holds exactly when
the version captured at open time equals the shared container's current
version; `commit()` is a no-op under a read lock, and under a write lock it
increments the version by one and applies the buffered delta (value swap /
front-drop plus push-append / tombstone-removal plus overlay-append). -/
theorem LockedTxVar.canCommit_commit_spec {T K V : Type} [LinearOrder K]
    (c : TxCell T) (sc : VersionedValue T)
    (q : TxQueue T) (sq : VersionedValue (List T))
    (m : TxMap K V) (sm : VersionedValue (List (K × V))) :
    (c.canCommit sc = true ↔ c.initial_version = sc.version) ∧
    (q.canCommit sq = true ↔ q.initial_version = sq.version) ∧
    (m.canCommit sm = true ↔ m.initial_version = sm.version) ∧
    (c.lockIsWrite = false → c.commitLocked sc = sc) ∧
    (c.lockIsWrite = true →
      c.commitLocked sc = ⟨sc.version + 1, c.tx_value⟩) ∧
    (q.lockIsWrite = false → q.commitLocked sq = sq) ∧
    (q.lockIsWrite = true →
      q.commitLocked sq =
        ⟨sq.version + 1, sq.data.drop q.front_position ++ q.push_back_items⟩) ∧
    (m.lockIsWrite = false → m.commitLocked sm = sm) ∧
    (m.lockIsWrite = true →
      m.commitLocked sm =
        ⟨sm.version + 1,
          btAppend (btRemoveAll m.tx_removed_keys sm.data) m.tx_map⟩) := by
  refine ⟨?_, ?_, ?_, ?_, ?_, ?_, ?_, ?_, ?_⟩
  · simp [TxCell.canCommit]
  · simp [TxQueue.canCommit]
  · simp [TxMap.canCommit]
  · intro h; simp [TxCell.commitLocked, h]
  · intro h; simp [TxCell.commitLocked, h]
  · intro h; simp [TxQueue.commitLocked, h]
  · intro h; simp [TxQueue.commitLocked, h]
  · intro h; simp [TxMap.commitLocked, h]
  · intro h; simp [TxMap.commitLocked, h]

/-- C3 witness: a dirty cell, queue and map at matching versions commit to
version-incremented shared state with their deltas applied. -/
theorem LockedTxVar.canCommit_commit_spec_witness :
    (TxCell.canCommit (T := Nat) ⟨3, 7, true⟩ ⟨3, 1⟩ = true) ∧
    (TxCell.commitLocked (T := Nat) ⟨3, 7, true⟩ ⟨3, 1⟩ = ⟨4, 7⟩) ∧
    (TxQueue.commitLocked (T := Nat) ⟨3, 1, [9]⟩ ⟨3, [5, 6]⟩ =
      ⟨4, [6, 9]⟩) ∧
    (TxMap.commitLocked (K := Nat) (V := Nat) ⟨3, [(2, 20)], [1]⟩
      ⟨3, [(1, 10), (3, 30)]⟩ = ⟨4, [(2, 20), (3, 30)]⟩) := by
  have h := LockedTxVar.canCommit_commit_spec (K := Nat) (V := Nat)
    (⟨3, 7, true⟩ : TxCell Nat) ⟨3, 1⟩
    (⟨3, 1, [9]⟩ : TxQueue Nat) ⟨3, [5, 6]⟩
    (⟨3, [(2, 20)], [1]⟩ : TxMap Nat Nat) ⟨3, [(1, 10), (3, 30)]⟩
  obtain ⟨h1, _, _, _, h5, _, h7, _, h9⟩ := h
  exact ⟨h1.mpr rfl, (h5 rfl).trans (by decide), (h7 rfl).trans (by decide),
    (h9 rfl).trans (by decide)⟩

/-- C2: the runner retries an attempt exactly on `Err(ConcurrentUpdate)`
from the closure or a failed commit validation; any other closure error
(`TransactionVariableIsInUse`, `TransactionAbort`, ...) is returned
immediately; a successful commit returns the closure's value; if every
attempt in the budget is retried, the result is
`TooManyTransactionRetryAttempts` carrying the same `attempts`; and the
caller never receives `ConcurrentUpdate`. -/
theorem Tx.runWithOptions_retry_spec {T E : Type} (attempts : Nat)
    (f : Nat → AttemptOutcome T E) :
    (∀ a, a < attempts →
      (f a = .closureErr .ConcurrentUpdate ∨
        ∃ t, f a = .closureOk t .Fail) →
      runFrom attempts f a = runFrom attempts f (a + 1)) ∧
    (∀ a, a < attempts → ∀ e, e ≠ Error.ConcurrentUpdate →
      f a = .closureErr e → runFrom attempts f a = .error e) ∧
    (∀ a, a < attempts → ∀ t, f a = .closureOk t .Success →
      runFrom attempts f a = .ok t) ∧
    ((∀ a, a < attempts →
      (f a = .closureErr .ConcurrentUpdate ∨
        ∃ t, f a = .closureOk t .Fail)) →
      Tx.runWithOptions attempts f =
        .error (.TooManyTransactionRetryAttempts attempts)) ∧
    Tx.runWithOptions attempts f ≠ .error Error.ConcurrentUpdate := by
  refine ⟨?_, ?_, ?_, ?_, ?_⟩
  · intro a ha hr
    rw [runFrom, dif_pos ha]
    rcases hr with hcv | ⟨t, ht⟩
    · rw [hcv]
    · rw [ht]
  · intro a ha e he hf
    rw [runFrom, dif_pos ha, hf]
    cases e with
    | ConcurrentUpdate => exact absurd rfl he
    | TransactionVariableIsInUse varId => rfl
    | TooManyTransactionRetryAttempts n => rfl
    | TransactionAbort err => rfl
  · intro a ha t ht
    rw [runFrom, dif_pos ha, ht]
  · intro hall
    have key : ∀ n a, attempts - a ≤ n →
        runFrom attempts f a =
          .error (.TooManyTransactionRetryAttempts attempts) := by
      intro n
      induction n with
      | zero =>
        intro a hle
        have ha : ¬ a < attempts := by omega
        rw [runFrom, dif_neg ha]
      | succ n ih =>
        intro a hle
        by_cases ha : a < attempts
        · rw [runFrom, dif_pos ha]
          rcases hall a ha with hcv | ⟨t, ht⟩
          · rw [hcv]
            exact ih (a + 1) (by omega)
          · rw [ht]
            exact ih (a + 1) (by omega)
        · rw [runFrom, dif_neg ha]
    exact key attempts 0 (by omega)
  · have key : ∀ n a, attempts - a ≤ n →
        runFrom attempts f a ≠ .error Error.ConcurrentUpdate := by
      intro n
      induction n with
      | zero =>
        intro a hle
        have ha : ¬ a < attempts := by omega
        rw [runFrom, dif_neg ha]
        intro h
        exact Error.noConfusion (Except.error.inj h)
      | succ n ih =>
        intro a hle
        by_cases ha : a < attempts
        · rw [runFrom, dif_pos ha]
          cases hf : f a with
          | closureErr e =>
            cases e with
            | ConcurrentUpdate => exact ih (a + 1) (by omega)
            | TransactionVariableIsInUse varId =>
              intro h
              exact Error.noConfusion (Except.error.inj h)
            | TooManyTransactionRetryAttempts n' =>
              intro h
              exact Error.noConfusion (Except.error.inj h)
            | TransactionAbort err =>
              intro h
              exact Error.noConfusion (Except.error.inj h)
          | closureOk t st =>
            cases st with
            | Success => exact fun h => Except.noConfusion h
            | Fail => exact ih (a + 1) (by omega)
        · rw [runFrom, dif_neg ha]
          intro h
          exact Error.noConfusion (Except.error.inj h)
    exact key attempts 0 (by omega)

/-- C2 witness: a closure whose first attempt hits an early abort, whose
second fails validation, and whose third commits; the runner returns the
third value and never surfaces `ConcurrentUpdate`. -/
theorem Tx.runWithOptions_retry_spec_witness :
    Tx.runWithOptions 3
        (fun a => if a = 0 then .closureErr .ConcurrentUpdate
          else if a = 1 then .closureOk 42 .Fail
          else .closureOk (7 : Nat) (E := Unit) .Success) =
      Except.ok 7 ∧
    Tx.runWithOptions 3
        (fun a => if a = 0 then .closureErr .ConcurrentUpdate
          else if a = 1 then .closureOk 42 .Fail
          else .closureOk (7 : Nat) (E := Unit) .Success) ≠
      Except.error Error.ConcurrentUpdate := by
  have h := Tx.runWithOptions_retry_spec 3
    (fun a => if a = 0 then .closureErr .ConcurrentUpdate
      else if a = 1 then .closureOk 42 .Fail
      else .closureOk (7 : Nat) (E := Unit) .Success)
  obtain ⟨hstep, _, hok, _, hnever⟩ := h
  refine ⟨?_, hnever⟩
  calc Tx.runWithOptions 3 _ = runFrom 3 _ 0 := rfl
    _ = runFrom 3 _ 1 := hstep 0 (by omega) (Or.inl rfl)
    _ = runFrom 3 _ 2 := hstep 1 (by omega) (Or.inr ⟨42, rfl⟩)
    _ = Except.ok 7 := hok 2 (by omega) 7 rfl

/-- C4: tracking a variable whose registry entry is `InUse` fails with
`TransactionVariableIsInUse` carrying that id; a `Pending` entry is handed
back as the new handle's variable (so its buffered mutations are observed);
in particular, tracking right after a handle drop returns exactly the
parked, possibly mutated, transaction variable. -/
theorem Tx.track_spec {T K V : Type} (vars : Registry T K V)
    (var_id : StmVarId) (fresh tv : TxVarBox T K V) :
    (btGet var_id vars = some .InUse →
      Tx.track vars var_id fresh =
        .error (.TransactionVariableIsInUse var_id)) ∧
    (btGet var_id vars = some (.Pending tv) →
      Tx.track vars var_id fresh = .ok (tv, btInsert var_id .InUse vars)) ∧
    (Tx.track (TxRef.drop vars var_id tv) var_id fresh =
      .ok (tv, btInsert var_id .InUse (TxRef.drop vars var_id tv))) := by
  refine ⟨?_, ?_, ?_⟩
  · intro h
    simp [Tx.track, h]
  · intro h
    simp [Tx.track, h]
  · simp [Tx.track, TxRef.drop, btGet_btInsert_self]

/-- C4 witness: a second `track` on a live handle fails; after dropping a
handle whose queue popped twice and pushed `9`, re-tracking returns that
same buffered queue. -/
theorem Tx.track_spec_witness :
    (Tx.track (T := Nat) (K := Nat) (V := Nat) [(5, .InUse)] 5
        (.cell ⟨0, 1, false⟩) =
      .error (.TransactionVariableIsInUse 5)) ∧
    (Tx.track (T := Nat) (K := Nat) (V := Nat)
        (TxRef.drop [] 5 (.queue ⟨0, 2, [9]⟩)) 5 (.queue ⟨0, 0, []⟩) =
      .ok (.queue ⟨0, 2, [9]⟩,
        btInsert 5 .InUse (TxRef.drop [] 5 (.queue ⟨0, 2, [9]⟩)))) :=
  ⟨(Tx.track_spec [(5, .InUse)] 5 (.cell ⟨0, 1, false⟩)
      (.cell ⟨0, 1, false⟩)).1 rfl,
   (Tx.track_spec [] 5 (.queue ⟨0, 0, []⟩) (.queue ⟨0, 2, [9]⟩)).2.2⟩

/-- C5: `TxQueue::pop` fails with `ConcurrentUpdate` exactly when the
shared version moved; otherwise a cursor within the shared length yields a
clone of the element under the cursor and advances the cursor, and a cursor
at or past the shared length pops the front of the push buffer, leaving the
cursor unchanged (`none` when the buffer is empty too). -/
theorem TxQueue.pop_spec {T : Type} (tv : TxQueue T)
    (shared : VersionedValue (List T)) :
    (tv.initial_version ≠ shared.version ↔
      tv.pop shared = .error .ConcurrentUpdate) ∧
    (tv.initial_version = shared.version →
      (∀ h : tv.front_position < shared.data.length,
        tv.pop shared = .ok (some (shared.data.get ⟨tv.front_position, h⟩),
          { tv with front_position := tv.front_position + 1 })) ∧
      (shared.data.length ≤ tv.front_position →
        tv.pop shared = .ok (tv.push_back_items.head?,
          { tv with push_back_items := tv.push_back_items.tail }))) := by
  obtain ⟨iv, fp, pb⟩ := tv
  have hA : iv = shared.version → ∀ h : fp < shared.data.length,
      TxQueue.pop ⟨iv, fp, pb⟩ shared =
        .ok (some (shared.data.get ⟨fp, h⟩), ⟨iv, fp + 1, pb⟩) := by
    intro hv h
    have hsome : shared.data[fp]? = some (shared.data.get ⟨fp, h⟩) := by
      rw [List.getElem?_eq_getElem h, List.get_eq_getElem]
    simp [TxQueue.pop, TxQueue.read_queue, hv, hsome, Bind.bind, Except.bind, Pure.pure, Except.pure]
  have hB : iv = shared.version → shared.data.length ≤ fp →
      TxQueue.pop ⟨iv, fp, pb⟩ shared =
        .ok (pb.head?, ⟨iv, fp, pb.tail⟩) := by
    intro hv hge
    have hnone : shared.data[fp]? = none := by
      rw [List.getElem?_eq_none hge]
    cases pb with
    | nil => simp [TxQueue.pop, TxQueue.read_queue, hv, hnone, Bind.bind, Except.bind, Pure.pure, Except.pure]
    | cons y rest => simp [TxQueue.pop, TxQueue.read_queue, hv, hnone, Bind.bind, Except.bind, Pure.pure, Except.pure]
  refine ⟨⟨?_, ?_⟩, fun hv => ⟨hA hv, hB hv⟩⟩
  · intro hne
    simp [TxQueue.pop, TxQueue.read_queue, hne, Bind.bind, Except.bind, Pure.pure, Except.pure]
  · intro herr
    by_contra hv
    rcases Nat.lt_or_ge fp shared.data.length with hlt | hge
    · rw [hA hv hlt] at herr
      exact Except.noConfusion herr
    · rw [hB hv hge] at herr
      exact Except.noConfusion herr

/-- C5 witness: cursor 1 on shared `[10, 20, 30]` at the matching version
pops `20` and advances; on an exhausted shared part, the push buffer is
popped with the cursor unchanged. -/
theorem TxQueue.pop_spec_witness :
    (TxQueue.pop (T := Nat) ⟨4, 1, [7]⟩ ⟨4, [10, 20, 30]⟩ =
      .ok (some 20, ⟨4, 2, [7]⟩)) ∧
    (TxQueue.pop (T := Nat) ⟨4, 3, [7, 8]⟩ ⟨4, [10, 20, 30]⟩ =
      .ok (some 7, ⟨4, 3, [8]⟩)) := by
  refine ⟨?_, ?_⟩
  · exact ((TxQueue.pop_spec ⟨4, 1, [7]⟩ ⟨4, [10, 20, 30]⟩).2 rfl).1
      (by decide)
  · exact ((TxQueue.pop_spec ⟨4, 3, [7, 8]⟩ ⟨4, [10, 20, 30]⟩).2 rfl).2
      (by decide)

/-- C6: `TxMap::get` returns the overlay's value when the key is in the
overlay; otherwise `none` for a tombstoned key; otherwise it reads the
shared map under a version check that yields `ConcurrentUpdate` exactly
when the shared version moved, and clones the shared value. -/
theorem TxMap.get_spec {K V : Type} [LinearOrder K] (tv : TxMap K V)
    (shared : VersionedValue (List (K × V))) (k : K) :
    (∀ v, btGet k tv.tx_map = some v → tv.get shared k = .ok (some v)) ∧
    (btGet k tv.tx_map = none → k ∈ tv.tx_removed_keys →
      tv.get shared k = .ok none) ∧
    (btGet k tv.tx_map = none → k ∉ tv.tx_removed_keys →
      ((tv.initial_version ≠ shared.version ↔
        tv.get shared k = .error .ConcurrentUpdate) ∧
       (tv.initial_version = shared.version →
        tv.get shared k = .ok (btGet k shared.data)))) := by
  refine ⟨?_, ?_, ?_⟩
  · intro v hov
    simp [TxMap.get, hov]
  · intro hov htomb
    simp [TxMap.get, hov, bsContains, htomb]
  · intro hov htomb
    refine ⟨⟨?_, ?_⟩, ?_⟩
    · intro hne
      simp [TxMap.get, hov, bsContains, htomb, TxMap.read_map, hne,
        Bind.bind, Except.bind, Pure.pure, Except.pure]
    · intro herr
      by_contra hv
      rw [show tv.get shared k = .ok (btGet k shared.data) by
        simp [TxMap.get, hov, bsContains, htomb, TxMap.read_map, hv,
          Bind.bind, Except.bind, Pure.pure, Except.pure]] at herr
      exact Except.noConfusion herr
    · intro hv
      simp [TxMap.get, hov, bsContains, htomb, TxMap.read_map, hv,
        Bind.bind, Except.bind, Pure.pure, Except.pure]

/-- C6 witness: overlay hit, tombstone miss and shared read all behave as
specified on a concrete map. -/
theorem TxMap.get_spec_witness :
    (TxMap.get (K := Nat) (V := Nat) ⟨2, [(1, 11)], [3]⟩
      ⟨2, [(1, 10), (3, 30), (4, 40)]⟩ 1 = .ok (some 11)) ∧
    (TxMap.get (K := Nat) (V := Nat) ⟨2, [(1, 11)], [3]⟩
      ⟨2, [(1, 10), (3, 30), (4, 40)]⟩ 3 = .ok none) ∧
    (TxMap.get (K := Nat) (V := Nat) ⟨2, [(1, 11)], [3]⟩
      ⟨2, [(1, 10), (3, 30), (4, 40)]⟩ 4 = .ok (some 40)) := by
  refine ⟨?_, ?_, ?_⟩
  · exact (TxMap.get_spec ⟨2, [(1, 11)], [3]⟩
      ⟨2, [(1, 10), (3, 30), (4, 40)]⟩ 1).1 11 (by decide)
  · exact (TxMap.get_spec ⟨2, [(1, 11)], [3]⟩
      ⟨2, [(1, 10), (3, 30), (4, 40)]⟩ 3).2.1 (by decide) (by decide)
  · exact ((TxMap.get_spec ⟨2, [(1, 11)], [3]⟩
      ⟨2, [(1, 10), (3, 30), (4, 40)]⟩ 4).2.2 (by decide) (by decide)).2 rfl

theorem queueIterNext_eq {T : Type} (tv : TxQueue T)
    (shared : VersionedValue (List T))
    (hv : tv.initial_version = shared.version)
    (hfp : tv.front_position ≤ shared.data.length) (c : Nat) :
    tv.iterNext shared c =
      .ok (((shared.data.drop tv.front_position ++
        tv.push_back_items)[c]?).map fun x => (x, c + 1)) := by
  obtain ⟨iv, fp, pb⟩ := tv
  simp only at hv hfp ⊢
  rcases Nat.lt_or_ge (c + fp) shared.data.length with hlt | hge
  · have hsome : shared.data[c + fp]? = some shared.data[c + fp] :=
      List.getElem?_eq_getElem hlt
    have hL : (shared.data.drop fp ++ pb)[c]? = some shared.data[c + fp] := by
      rw [List.getElem?_append, if_pos (by simp; omega), List.getElem?_drop,
        Nat.add_comm fp c, List.getElem?_eq_getElem (by omega)]
    have hnotle : ¬ shared.data.length ≤ c + fp := by omega
    rw [hL]
    simp [TxQueue.iterNext, TxQueue.read_queue, hv, hsome, hnotle,
      Bind.bind, Except.bind, Pure.pure, Except.pure, Option.orElse]
  · have hnone : shared.data[c + fp]? = none := List.getElem?_eq_none hge
    have hL : (shared.data.drop fp ++ pb)[c]? = pb[c + fp -
        shared.data.length]? := by
      rw [List.getElem?_append_right (by simp; omega)]
      congr 1
      simp
      omega
    have hle : shared.data.length ≤ c + fp := hge
    rw [hL]
    simp [TxQueue.iterNext, TxQueue.read_queue, hv, hnone, hle,
      Bind.bind, Except.bind, Pure.pure, Except.pure, Option.orElse]

theorem queueIterCollect_eq {T : Type} (tv : TxQueue T)
    (shared : VersionedValue (List T))
    (hv : tv.initial_version = shared.version)
    (hfp : tv.front_position ≤ shared.data.length) :
    ∀ (fuel c : Nat),
      (shared.data.drop tv.front_position ++
        tv.push_back_items).length - c ≤ fuel →
      tv.iterCollect shared c fuel =
        .ok ((shared.data.drop tv.front_position ++
          tv.push_back_items).drop c) := by
  intro fuel
  induction fuel with
  | zero =>
    intro c hc
    rw [TxQueue.iterCollect, List.drop_eq_nil_of_le (by omega)]
  | succ fuel ih =>
    intro c hc
    rw [TxQueue.iterCollect, queueIterNext_eq tv shared hv hfp c]
    rcases Nat.lt_or_ge c (shared.data.drop tv.front_position ++
        tv.push_back_items).length with hlt | hge
    · rw [List.getElem?_eq_getElem hlt]
      simp only [Option.map_some']
      rw [ih (c + 1) (by omega)]
      rw [Except.map, List.drop_eq_getElem_cons hlt]
    · rw [List.getElem?_eq_none hge]
      simp only [Option.map_none']
      rw [List.drop_eq_nil_of_le hge]

/-- C8: with the shared version unchanged, iterating the queue yields the
shared elements from `front_position` to the end followed by the push
buffer, in order; and each `iterNext` re-checks the version, yielding
`ConcurrentUpdate` whenever it no longer matches. -/
theorem TxQueue.iter_order_spec {T : Type} :
    (∀ (tv : TxQueue T) (shared : VersionedValue (List T)) (fuel : Nat),
      tv.initial_version = shared.version →
      tv.front_position ≤ shared.data.length →
      shared.data.length - tv.front_position +
        tv.push_back_items.length ≤ fuel →
      tv.iterCollect shared 0 fuel =
        .ok (shared.data.drop tv.front_position ++ tv.push_back_items)) ∧
    (∀ (tv : TxQueue T) (shared : VersionedValue (List T)) (c : Nat),
      tv.initial_version ≠ shared.version →
      tv.iterNext shared c = .error .ConcurrentUpdate) := by
  constructor
  · intro tv shared fuel hv hfp hfuel
    have := queueIterCollect_eq tv shared hv hfp fuel 0 (by simp; omega)
    simpa using this
  · intro tv shared c hne
    simp [TxQueue.iterNext, TxQueue.read_queue, hne, Bind.bind, Except.bind]

/-- C8 witness: cursor at 1 with pushed `[7, 8]` on shared `[10, 20, 30]`
iterates to `[20, 30, 7, 8]`; a moved version makes `iterNext` fail. -/
theorem TxQueue.iter_order_spec_witness :
    (TxQueue.iterCollect (T := Nat) ⟨0, 1, [7, 8]⟩ ⟨0, [10, 20, 30]⟩ 0 4 =
      .ok [20, 30, 7, 8]) ∧
    (TxQueue.iterNext (T := Nat) ⟨0, 1, [7, 8]⟩ ⟨1, [10, 20, 30]⟩ 0 =
      .error .ConcurrentUpdate) :=
  ⟨(TxQueue.iter_order_spec.1 ⟨0, 1, [7, 8]⟩ ⟨0, [10, 20, 30]⟩ 4 rfl
      (by decide) (by decide)),
   TxQueue.iter_order_spec.2 ⟨0, 1, [7, 8]⟩ ⟨1, [10, 20, 30]⟩ 0 (by decide)⟩

theorem find?_eq_head?_filter {α : Type} (p : α → Bool) (l : List α) :
    l.find? p = (l.filter p).head? := by
  induction l with
  | nil => rfl
  | cons x xs ih =>
    by_cases h : p x
    · rw [List.find?_cons_of_pos _ h, List.filter_cons_of_pos h, List.head?_cons]
    · rw [List.find?_cons_of_neg _ h, List.filter_cons_of_neg h, ih]

theorem mergeOverlay_nil (ys : List (K × V)) : mergeOverlay [] ys = ys := by
  rw [mergeOverlay]

theorem mergeOverlay_nil_right (xs : List (K × V)) :
    mergeOverlay xs [] = xs := by
  cases xs with
  | nil => rw [mergeOverlay]
  | cons x xs' => rw [mergeOverlay]

theorem mergeOverlay_cons_cons (x y : K × V) (xs ys : List (K × V)) :
    mergeOverlay (x :: xs) (y :: ys) =
      if x.1 < y.1 then x :: mergeOverlay xs (y :: ys)
      else if y.1 < x.1 then y :: mergeOverlay (x :: xs) ys
      else y :: mergeOverlay xs ys := by
  rw [mergeOverlay]

theorem mem_mergeOverlay {xs ys : List (K × V)} {z : K × V}
    (h : z ∈ mergeOverlay xs ys) : z ∈ xs ∨ z ∈ ys := by
  induction xs, ys using mergeOverlay.induct with
  | case1 ys =>
    rw [mergeOverlay_nil] at h
    exact Or.inr h
  | case2 x xs =>
    rw [mergeOverlay_nil_right] at h
    exact Or.inl h
  | case3 x xs y ys h1 ih =>
    rw [mergeOverlay_cons_cons, if_pos h1] at h
    rcases List.mem_cons.mp h with hz | hz
    · exact Or.inl (hz ▸ List.mem_cons_self x xs)
    · rcases ih hz with h' | h'
      · exact Or.inl (List.mem_cons_of_mem x h')
      · exact Or.inr h'
  | case4 x xs y ys h1 h2 ih =>
    rw [mergeOverlay_cons_cons, if_neg h1, if_pos h2] at h
    rcases List.mem_cons.mp h with hz | hz
    · exact Or.inr (hz ▸ List.mem_cons_self y ys)
    · rcases ih hz with h' | h'
      · exact Or.inl h'
      · exact Or.inr (List.mem_cons_of_mem y h')
  | case5 x xs y ys h1 h2 ih =>
    rw [mergeOverlay_cons_cons, if_neg h1, if_neg h2] at h
    rcases List.mem_cons.mp h with hz | hz
    · exact Or.inr (hz ▸ List.mem_cons_self y ys)
    · rcases ih hz with h' | h'
      · exact Or.inl (List.mem_cons_of_mem x h')
      · exact Or.inr (List.mem_cons_of_mem y h')

theorem mergeOverlay_sorted {xs ys : List (K × V)}
    (hx : KeysSorted xs) (hy : KeysSorted ys) :
    KeysSorted (mergeOverlay xs ys) := by
  induction xs, ys using mergeOverlay.induct with
  | case1 ys =>
    rw [mergeOverlay_nil]
    exact hy
  | case2 x xs =>
    rw [mergeOverlay_nil_right]
    exact hx
  | case3 x xs y ys h1 ih =>
    rw [mergeOverlay_cons_cons, if_pos h1]
    rw [KeysSorted, List.pairwise_cons]
    refine ⟨?_, ih (List.Pairwise.of_cons hx) hy⟩
    intro z hz
    rcases mem_mergeOverlay hz with h' | h'
    · exact (List.pairwise_cons.mp hx).1 z h'
    · rcases List.mem_cons.mp h' with h'' | h''
      · exact h'' ▸ h1
      · exact h1.trans ((List.pairwise_cons.mp hy).1 z h'')
  | case4 x xs y ys h1 h2 ih =>
    rw [mergeOverlay_cons_cons, if_neg h1, if_pos h2]
    rw [KeysSorted, List.pairwise_cons]
    refine ⟨?_, ih hx (List.Pairwise.of_cons hy)⟩
    intro z hz
    rcases mem_mergeOverlay hz with h' | h'
    · rcases List.mem_cons.mp h' with h'' | h''
      · exact h'' ▸ h2
      · exact h2.trans ((List.pairwise_cons.mp hx).1 z h'')
    · exact (List.pairwise_cons.mp hy).1 z h'
  | case5 x xs y ys h1 h2 ih =>
    have heq : x.1 = y.1 := le_antisymm (not_lt.mp h2) (not_lt.mp h1)
    rw [mergeOverlay_cons_cons, if_neg h1, if_neg h2]
    rw [KeysSorted, List.pairwise_cons]
    refine ⟨?_, ih (List.Pairwise.of_cons hx) (List.Pairwise.of_cons hy)⟩
    intro z hz
    rcases mem_mergeOverlay hz with h' | h'
    · exact heq ▸ (List.pairwise_cons.mp hx).1 z h'
    · exact (List.pairwise_cons.mp hy).1 z h'

theorem mergeOverlay_cons_left {x : K × V} {xs ys : List (K × V)}
    (h : ∀ z ∈ ys, x.1 < z.1) :
    mergeOverlay (x :: xs) ys = x :: mergeOverlay xs ys := by
  cases ys with
  | nil => rw [mergeOverlay_nil_right, mergeOverlay_nil_right]
  | cons y ys' =>
    have h1 : x.1 < y.1 := h y (List.mem_cons_self y ys')
    rw [mergeOverlay_cons_cons, if_pos h1]

theorem mergeOverlay_cons_right {y : K × V} {xs ys : List (K × V)}
    (h : ∀ z ∈ xs, y.1 < z.1) :
    mergeOverlay xs (y :: ys) = y :: mergeOverlay xs ys := by
  cases xs with
  | nil => rw [mergeOverlay_nil, mergeOverlay_nil]
  | cons x xs' =>
    have h1 : y.1 < x.1 := h x (List.mem_cons_self x xs')
    rw [mergeOverlay_cons_cons, if_neg (lt_asymm h1), if_pos h1]

theorem filter_mergeOverlay {xs ys : List (K × V)} (k : K)
    (hx : KeysSorted xs) (hy : KeysSorted ys) :
    (mergeOverlay xs ys).filter (fun p => decide (k < p.1)) =
      mergeOverlay (xs.filter fun p => decide (k < p.1))
        (ys.filter fun p => decide (k < p.1)) := by
  induction xs, ys using mergeOverlay.induct with
  | case1 ys => simp [mergeOverlay_nil]
  | case2 x xs => simp [mergeOverlay_nil_right]
  | case3 x xs y ys h1 ih =>
    have hys : ∀ z ∈ List.filter (fun p => decide (k < p.1)) (y :: ys),
        x.1 < z.1 := by
      intro z hz
      rcases List.mem_filter.mp hz with ⟨hz', _⟩
      rcases List.mem_cons.mp hz' with h'' | h''
      · exact h'' ▸ h1
      · exact h1.trans ((List.pairwise_cons.mp hy).1 z h'')
    rw [mergeOverlay_cons_cons, if_pos h1]
    by_cases hk : k < x.1
    · rw [List.filter_cons_of_pos (by simpa using hk)]
      rw [List.filter_cons_of_pos (by simpa using hk)]
      rw [ih (List.Pairwise.of_cons hx) hy, mergeOverlay_cons_left hys]
    · rw [List.filter_cons_of_neg (by simpa using hk)]
      rw [List.filter_cons_of_neg (by simpa using hk)]
      exact ih (List.Pairwise.of_cons hx) hy
  | case4 x xs y ys h1 h2 ih =>
    have hxs : ∀ z ∈ List.filter (fun p => decide (k < p.1)) (x :: xs),
        y.1 < z.1 := by
      intro z hz
      rcases List.mem_filter.mp hz with ⟨hz', _⟩
      rcases List.mem_cons.mp hz' with h'' | h''
      · exact h'' ▸ h2
      · exact h2.trans ((List.pairwise_cons.mp hx).1 z h'')
    rw [mergeOverlay_cons_cons, if_neg h1, if_pos h2]
    by_cases hk : k < y.1
    · have hfy : List.filter (fun p => decide (k < p.1)) (y :: ys) =
          y :: List.filter (fun p => decide (k < p.1)) ys :=
        List.filter_cons_of_pos (by simpa using hk)
      rw [List.filter_cons_of_pos (by simpa using hk), hfy]
      rw [ih hx (List.Pairwise.of_cons hy), mergeOverlay_cons_right hxs]
    · have hfy : List.filter (fun p => decide (k < p.1)) (y :: ys) =
          List.filter (fun p => decide (k < p.1)) ys :=
        List.filter_cons_of_neg (by simpa using hk)
      rw [List.filter_cons_of_neg (by simpa using hk), hfy]
      exact ih hx (List.Pairwise.of_cons hy)
  | case5 x xs y ys h1 h2 ih =>
    have heq : x.1 = y.1 := le_antisymm (not_lt.mp h2) (not_lt.mp h1)
    rw [mergeOverlay_cons_cons, if_neg h1, if_neg h2]
    by_cases hk : k < y.1
    · have hkx : k < x.1 := by
        rw [heq]
        exact hk
      rw [List.filter_cons_of_pos (by simpa using hk)]
      rw [List.filter_cons_of_pos (by simpa using hkx)]
      rw [List.filter_cons_of_pos (by simpa using hk)]
      rw [ih (List.Pairwise.of_cons hx) (List.Pairwise.of_cons hy)]
      rw [mergeOverlay_cons_cons, if_neg h1, if_neg h2]
    · have hkx : ¬ k < x.1 := by
        rw [heq]
        exact hk
      rw [List.filter_cons_of_neg (by simpa using hk)]
      rw [List.filter_cons_of_neg (by simpa using hkx)]
      rw [List.filter_cons_of_neg (by simpa using hk)]
      exact ih (List.Pairwise.of_cons hx) (List.Pairwise.of_cons hy)

theorem afterCursor_mergeOverlay {xs ys : List (K × V)} (c : Option K)
    (hx : KeysSorted xs) (hy : KeysSorted ys) :
    afterCursor c (mergeOverlay xs ys) =
      mergeOverlay (afterCursor c xs) (afterCursor c ys) := by
  cases c with
  | none => rfl
  | some k => exact filter_mergeOverlay k hx hy

theorem mergeOverlay_head? (xs ys : List (K × V)) :
    (mergeOverlay xs ys).head? =
      (match xs.head?, ys.head? with
      | some a, some b => some (if a.1 < b.1 then a else b)
      | some a, none => some a
      | none, some b => some b
      | none, none => none) := by
  cases xs with
  | nil => cases ys <;> simp [mergeOverlay_nil]
  | cons x xs' =>
    cases ys with
    | nil => simp [mergeOverlay_nil_right]
    | cons y ys' =>
      by_cases h1 : x.1 < y.1
      · rw [mergeOverlay_cons_cons, if_pos h1]
        simp [h1]
      · by_cases h2 : y.1 < x.1
        · rw [mergeOverlay_cons_cons, if_neg h1, if_pos h2]
          simp [h1]
        · rw [mergeOverlay_cons_cons, if_neg h1, if_neg h2]
          simp [h1]

theorem afterCursor_advance {l : List (K × V)} (hl : KeysSorted l) :
    ∀ {c : Option K} {p : K × V} {rest : List (K × V)},
      afterCursor c l = p :: rest → afterCursor (some p.1) l = rest := by
  induction l with
  | nil =>
    intro c p rest h
    cases c <;> simp [afterCursor] at h
  | cons x l' ih =>
    intro c p rest h
    have hall : ∀ z ∈ l', x.1 < z.1 := (List.pairwise_cons.mp hl).1
    cases c with
    | none =>
      simp only [afterCursor] at h
      obtain ⟨hp, hrest⟩ := List.cons.inj h
      subst hp
      subst hrest
      simp only [afterCursor]
      rw [List.filter_cons_of_neg (by simp)]
      exact List.filter_eq_self.mpr fun z hz => by simpa using hall z hz
    | some k =>
      simp only [afterCursor] at h
      by_cases hk : k < x.1
      · rw [List.filter_cons_of_pos (by simpa using hk)] at h
        obtain ⟨hp, hrest⟩ := List.cons.inj h
        subst hp
        have hfl : List.filter (fun q => decide (k < q.1)) l' = l' :=
          List.filter_eq_self.mpr fun z hz => by
            simpa using hk.trans (hall z hz)
        rw [hfl] at hrest
        subst hrest
        simp only [afterCursor]
        rw [List.filter_cons_of_neg (by simp)]
        exact List.filter_eq_self.mpr fun z hz => by simpa using hall z hz
      · rw [List.filter_cons_of_neg (by simpa using hk)] at h
        have hmem : p ∈ l' := by
          have hpf : p ∈ List.filter (fun q => decide (k < q.1)) l' := by
            rw [h]
            exact List.mem_cons_self p rest
          exact (List.mem_filter.mp hpf).1
        have hxp : x.1 < p.1 := hall p hmem
        simp only [afterCursor]
        rw [List.filter_cons_of_neg (by simpa using lt_asymm hxp)]
        have h' : afterCursor (some k) l' = p :: rest := by
          simp only [afterCursor]
          exact h
        exact ih (List.Pairwise.of_cons hl) h'

theorem mapIterNext_eq (tv : TxMap K V)
    (shared : VersionedValue (List (K × V)))
    (hv : tv.initial_version = shared.version)
    (hs : KeysSorted shared.data) (ht : KeysSorted tv.tx_map) (c : Option K) :
    tv.iterNext shared c =
      .ok ((afterCursor c (mergeOverlay
          (shared.data.filter fun p => !bsContains p.1 tv.tx_removed_keys)
          tv.tx_map)).head?.map fun p => (p, some p.1)) := by
  have hxs : KeysSorted
      (shared.data.filter fun p => !bsContains p.1 tv.tx_removed_keys) :=
    List.Pairwise.filter _ hs
  have hfind : (afterCursor c shared.data).find?
        (fun p => !bsContains p.1 tv.tx_removed_keys) =
      (afterCursor c (shared.data.filter
        fun p => !bsContains p.1 tv.tx_removed_keys)).head? := by
    cases c with
    | none =>
      simp only [afterCursor]
      exact find?_eq_head?_filter _ _
    | some k =>
      simp only [afterCursor]
      rw [find?_eq_head?_filter, List.filter_filter, List.filter_filter]
      congr 1
      exact List.filter_congr fun a _ => Bool.and_comm _ _
  rw [TxMap.iterNext, TxMap.read_map, hv]
  simp only [ne_eq, not_true_eq_false, if_false, Bind.bind, Except.bind,
    Pure.pure, Except.pure]
  rw [afterCursor_mergeOverlay c hxs ht, mergeOverlay_head?, hfind]

theorem mapIterCollect_eq (tv : TxMap K V)
    (shared : VersionedValue (List (K × V)))
    (hv : tv.initial_version = shared.version)
    (hs : KeysSorted shared.data) (ht : KeysSorted tv.tx_map) :
    ∀ (fuel : Nat) (c : Option K),
      (afterCursor c (mergeOverlay
        (shared.data.filter fun p => !bsContains p.1 tv.tx_removed_keys)
        tv.tx_map)).length ≤ fuel →
      tv.iterCollect shared c fuel =
        .ok (afterCursor c (mergeOverlay
          (shared.data.filter fun p => !bsContains p.1 tv.tx_removed_keys)
          tv.tx_map)) := by
  have hmerged : KeysSorted (mergeOverlay
      (shared.data.filter fun p => !bsContains p.1 tv.tx_removed_keys)
      tv.tx_map) :=
    mergeOverlay_sorted (List.Pairwise.filter _ hs) ht
  intro fuel
  induction fuel with
  | zero =>
    intro c hc
    cases hre : afterCursor c (mergeOverlay
        (shared.data.filter fun p => !bsContains p.1 tv.tx_removed_keys)
        tv.tx_map) with
    | nil => rw [TxMap.iterCollect]
    | cons p rest =>
      rw [hre] at hc
      simp at hc
  | succ fuel ih =>
    intro c hc
    rw [TxMap.iterCollect, mapIterNext_eq tv shared hv hs ht c]
    cases hre : afterCursor c (mergeOverlay
        (shared.data.filter fun p => !bsContains p.1 tv.tx_removed_keys)
        tv.tx_map) with
    | nil => rfl
    | cons p rest =>
      simp only [List.head?_cons, Option.map_some']
      have hadv : afterCursor (some p.1) (mergeOverlay
          (shared.data.filter fun p => !bsContains p.1 tv.tx_removed_keys)
          tv.tx_map) = rest := afterCursor_advance hmerged hre
      have hlen : (afterCursor (some p.1) (mergeOverlay
          (shared.data.filter fun p => !bsContains p.1 tv.tx_removed_keys)
          tv.tx_map)).length ≤ fuel := by
        rw [hadv]
        rw [hre] at hc
        simp only [List.length_cons] at hc
        omega
      rw [ih (some p.1) hlen, hadv]
      rfl

/-- C7: with the shared version unchanged, iterating the map yields exactly
the ordered-by-key merge of the overlay with the tombstone-filtered shared
map, the overlay's entry winning on a key present in both; the result is
key-sorted, so each key appears at most once. -/
theorem TxMap.iter_spec {K V : Type} [LinearOrder K] (tv : TxMap K V)
    (shared : VersionedValue (List (K × V)))
    (hv : tv.initial_version = shared.version)
    (hs : KeysSorted shared.data) (ht : KeysSorted tv.tx_map) (fuel : Nat)
    (hfuel : (mergeOverlay
      (shared.data.filter fun p => !bsContains p.1 tv.tx_removed_keys)
      tv.tx_map).length ≤ fuel) :
    tv.iterCollect shared none fuel =
      .ok (mergeOverlay
        (shared.data.filter fun p => !bsContains p.1 tv.tx_removed_keys)
        tv.tx_map) ∧
    KeysSorted (mergeOverlay
      (shared.data.filter fun p => !bsContains p.1 tv.tx_removed_keys)
      tv.tx_map) ∧
    ((mergeOverlay
      (shared.data.filter fun p => !bsContains p.1 tv.tx_removed_keys)
      tv.tx_map).map Prod.fst).Nodup := by
  have hmerged : KeysSorted (mergeOverlay
      (shared.data.filter fun p => !bsContains p.1 tv.tx_removed_keys)
      tv.tx_map) :=
    mergeOverlay_sorted (List.Pairwise.filter _ hs) ht
  refine ⟨?_, hmerged, ?_⟩
  · exact mapIterCollect_eq tv shared hv hs ht fuel none hfuel
  · have hp : ((mergeOverlay
        (shared.data.filter fun p => !bsContains p.1 tv.tx_removed_keys)
        tv.tx_map).map Prod.fst).Pairwise (· < ·) :=
      List.pairwise_map.mpr hmerged
    exact hp.imp ne_of_lt

/-- C7 witness: overlay `{2 ↦ 22, 3 ↦ 33}` and tombstones `{4}` over shared
`{1 ↦ 10, 3 ↦ 30, 4 ↦ 40, 5 ↦ 50}` iterate to
`[(1, 10), (2, 22), (3, 33), (5, 50)]`. -/
theorem TxMap.iter_spec_witness :
    TxMap.iterCollect (K := Nat) (V := Nat) ⟨2, [(2, 22), (3, 33)], [4]⟩
      ⟨2, [(1, 10), (3, 30), (4, 40), (5, 50)]⟩ none 6 =
      .ok [(1, 10), (2, 22), (3, 33), (5, 50)] := by
  have h := TxMap.iter_spec (K := Nat) (V := Nat)
    ⟨2, [(2, 22), (3, 33)], [4]⟩ ⟨2, [(1, 10), (3, 30), (4, 40), (5, 50)]⟩
    rfl (by unfold KeysSorted; decide) (by unfold KeysSorted; decide) 6
    (by simp [bsContains, mergeOverlay_cons_cons, mergeOverlay_nil,
      mergeOverlay_nil_right])
  rw [h.1]
  simp [bsContains, mergeOverlay_cons_cons, mergeOverlay_nil,
    mergeOverlay_nil_right]

theorem btInsert_eq_cons_of_forall_lt {k : K} {v : V} {m : List (K × V)}
    (h : ∀ z ∈ m, k < z.1) : btInsert k v m = (k, v) :: m := by
  cases m with
  | nil => rfl
  | cons p rest =>
    obtain ⟨k0, v0⟩ := p
    have : k < k0 := h (k0, v0) (List.mem_cons_self _ _)
    simp [btInsert, this]

theorem keys_btInsert_subset {k k' : K} {v : V} {m : List (K × V)}
    (h : k' ∈ (btInsert k v m).map Prod.fst) :
    k' = k ∨ k' ∈ m.map Prod.fst := by
  induction m with
  | nil =>
    simp [btInsert] at h
    exact Or.inl h
  | cons p rest ih =>
    obtain ⟨k0, v0⟩ := p
    by_cases h1 : k < k0
    · simp only [btInsert, if_pos h1] at h
      simp at h
      rcases h with h | h | h
      · exact Or.inl h
      · exact Or.inr (by simp [h])
      · exact Or.inr (by simp; exact Or.inr h)
    · by_cases h2 : k = k0
      · simp only [btInsert, if_neg h1, if_pos h2] at h
        simp at h
        rcases h with h | h
        · exact Or.inl h
        · exact Or.inr (by simp; exact Or.inr h)
      · simp only [btInsert, if_neg h1, if_neg h2] at h
        simp at h
        rcases h with h | h
        · exact Or.inr (by simp [h])
        · rcases ih (by simpa using h) with h' | h'
          · exact Or.inl h'
          · exact Or.inr (by simp; exact Or.inr (by simpa using h'))

theorem btRemove_sublist (k : K) (m : List (K × V)) :
    (btRemove k m).Sublist m := by
  induction m with
  | nil => simp [btRemove]
  | cons p rest ih =>
    obtain ⟨k0, v0⟩ := p
    by_cases h : k = k0
    · simp only [btRemove, if_pos h]
      exact (List.Sublist.refl rest).cons _
    · simp only [btRemove, if_neg h]
      exact ih.cons₂ _

theorem bsRemove_sublist (k : K) (s : List K) :
    (bsRemove k s).Sublist s := by
  induction s with
  | nil => simp [bsRemove]
  | cons k0 rest ih =>
    by_cases h : k = k0
    · simp only [bsRemove, if_pos h]
      exact (List.Sublist.refl rest).cons _
    · simp only [bsRemove, if_neg h]
      exact ih.cons₂ _

theorem not_mem_keys_btRemove {k : K} {m : List (K × V)}
    (hm : KeysSorted m) : k ∉ (btRemove k m).map Prod.fst := by
  induction m with
  | nil => simp [btRemove]
  | cons p rest ih =>
    obtain ⟨k0, v0⟩ := p
    rw [KeysSorted, List.pairwise_cons] at hm
    obtain ⟨hhead, htail⟩ := hm
    by_cases h : k = k0
    · simp only [btRemove, if_pos h]
      intro hmem
      rcases List.mem_map.mp hmem with ⟨z, hz, hzk⟩
      have : k0 < z.1 := hhead z hz
      rw [hzk, ← h] at this
      exact lt_irrefl k this
    · simp only [btRemove, if_neg h]
      intro hmem
      simp at hmem
      rcases hmem with hmem | hmem
      · exact h hmem
      · exact ih htail (by simpa using hmem)

theorem not_mem_bsRemove {k : K} {s : List K} (hs : SetSorted s) :
    k ∉ bsRemove k s := by
  induction s with
  | nil => simp [bsRemove]
  | cons k0 rest ih =>
    rw [SetSorted, List.pairwise_cons] at hs
    obtain ⟨hhead, htail⟩ := hs
    by_cases h : k = k0
    · simp only [bsRemove, if_pos h]
      intro hmem
      have : k0 < k := hhead k hmem
      rw [h] at this
      exact lt_irrefl k0 this
    · simp only [bsRemove, if_neg h]
      intro hmem
      rcases List.mem_cons.mp hmem with hmem | hmem
      · exact h hmem
      · exact ih htail hmem

theorem mem_bsInsert_elim {k k' : K} {s : List K}
    (h : k' ∈ bsInsert k s) : k' = k ∨ k' ∈ s := by
  induction s with
  | nil =>
    simp [bsInsert] at h
    exact Or.inl h
  | cons k0 rest ih =>
    by_cases h1 : k < k0
    · simp only [bsInsert, if_pos h1] at h
      rcases List.mem_cons.mp h with h | h
      · exact Or.inl h
      · exact Or.inr h
    · by_cases h2 : k = k0
      · simp only [bsInsert, if_neg h1, if_pos h2] at h
        exact Or.inr h
      · simp only [bsInsert, if_neg h1, if_neg h2] at h
        rcases List.mem_cons.mp h with h | h
        · exact Or.inr (by simp [h])
        · rcases ih h with h' | h'
          · exact Or.inl h'
          · exact Or.inr (List.mem_cons_of_mem _ h')

theorem KeysSorted_btInsert (k : K) (v : V) {m : List (K × V)}
    (hm : KeysSorted m) : KeysSorted (btInsert k v m) := by
  induction m with
  | nil => simp [btInsert, KeysSorted]
  | cons p rest ih =>
    obtain ⟨k0, v0⟩ := p
    rw [KeysSorted, List.pairwise_cons] at hm
    obtain ⟨hhead, htail⟩ := hm
    by_cases h1 : k < k0
    · simp only [btInsert, if_pos h1]
      rw [KeysSorted, List.pairwise_cons]
      constructor
      · intro z hz
        rcases List.mem_cons.mp hz with hz | hz
        · rw [hz]
          exact h1
        · exact h1.trans (hhead z hz)
      · exact List.pairwise_cons.mpr ⟨hhead, htail⟩
    · by_cases h2 : k = k0
      · simp only [btInsert, if_neg h1, if_pos h2]
        rw [KeysSorted, List.pairwise_cons]
        exact ⟨fun z hz => h2 ▸ hhead z hz, htail⟩
      · have h3 : k0 < k := lt_of_le_of_ne (not_lt.mp h1) (Ne.symm h2)
        simp only [btInsert, if_neg h1, if_neg h2]
        rw [KeysSorted, List.pairwise_cons]
        constructor
        · intro z hz
          rcases keys_btInsert_subset
              (List.mem_map.mpr ⟨z, hz, rfl⟩) with h' | h'
          · rw [h']
            exact h3
          · rcases List.mem_map.mp h' with ⟨z', hz', hzz'⟩
            rw [← hzz']
            exact hhead z' hz'
        · exact ih htail

theorem SetSorted_bsInsert (k : K) {s : List K} (hs : SetSorted s) :
    SetSorted (bsInsert k s) := by
  induction s with
  | nil => simp [bsInsert, SetSorted]
  | cons k0 rest ih =>
    rw [SetSorted, List.pairwise_cons] at hs
    obtain ⟨hhead, htail⟩ := hs
    by_cases h1 : k < k0
    · simp only [bsInsert, if_pos h1]
      rw [SetSorted, List.pairwise_cons]
      constructor
      · intro z hz
        rcases List.mem_cons.mp hz with hz | hz
        · rw [hz]
          exact h1
        · exact h1.trans (hhead z hz)
      · exact List.pairwise_cons.mpr ⟨hhead, htail⟩
    · by_cases h2 : k = k0
      · simp only [bsInsert, if_neg h1, if_pos h2]
        rw [SetSorted, List.pairwise_cons]
        exact ⟨hhead, htail⟩
      · have h3 : k0 < k := lt_of_le_of_ne (not_lt.mp h1) (Ne.symm h2)
        simp only [bsInsert, if_neg h1, if_neg h2]
        rw [SetSorted, List.pairwise_cons]
        constructor
        · intro z hz
          rcases mem_bsInsert_elim hz with h' | h'
          · rw [h']
            exact h3
          · exact hhead z h'
        · exact ih htail

theorem KeysSorted_btRemove (k : K) {m : List (K × V)}
    (hm : KeysSorted m) : KeysSorted (btRemove k m) :=
  List.Pairwise.sublist (btRemove_sublist k m) hm

theorem SetSorted_bsRemove (k : K) {s : List K} (hs : SetSorted s) :
    SetSorted (bsRemove k s) :=
  List.Pairwise.sublist (bsRemove_sublist k s) hs

theorem btRemove_btInsert_comm {k kr : K} {v : V} {m : List (K × V)}
    (hm : KeysSorted m) (hne : k ≠ kr) :
    btRemove kr (btInsert k v m) = btInsert k v (btRemove kr m) := by
  have hrk : ¬ kr = k := fun h => hne h.symm
  induction m with
  | nil => simp [btInsert, btRemove, hrk]
  | cons p rest ih =>
    obtain ⟨k0, v0⟩ := p
    rw [KeysSorted, List.pairwise_cons] at hm
    obtain ⟨hhead, htail⟩ := hm
    by_cases h1 : k < k0
    · simp only [btInsert, if_pos h1]
      by_cases hr : kr = k0
      · simp only [btRemove, if_neg hrk, if_pos hr]
        exact (btInsert_eq_cons_of_forall_lt fun z hz =>
          h1.trans (hhead z hz)).symm
      · simp only [btRemove, if_neg hrk, if_neg hr, btInsert, if_pos h1]
    · by_cases h2 : k = k0
      · have hrk0 : ¬ kr = k0 := fun h => hne (h2.trans h.symm)
        simp only [btInsert, if_neg h1, if_pos h2, btRemove, if_neg hrk,
          if_neg hrk0]
      · by_cases hr : kr = k0
        · simp only [btInsert, if_neg h1, if_neg h2, btRemove, if_pos hr]
        · simp only [btInsert, if_neg h1, if_neg h2, btRemove, if_neg hr,
            if_neg hrk]
          rw [ih htail]

theorem btRemoveAll_btInsert_comm {k : K} {v : V} {s : List K}
    {m : List (K × V)} (hm : KeysSorted m) (hk : k ∉ s) :
    btRemoveAll s (btInsert k v m) = btInsert k v (btRemoveAll s m) := by
  induction s generalizing m with
  | nil => rfl
  | cons kr s' ih =>
    have hne : k ≠ kr := fun h => hk (h ▸ List.mem_cons_self kr s')
    have hk' : k ∉ s' := fun h => hk (List.mem_cons_of_mem kr h)
    show btRemoveAll s' (btRemove kr (btInsert k v m)) = _
    rw [btRemove_btInsert_comm hm hne, ih (KeysSorted_btRemove kr hm) hk']
    rfl

theorem btAppend_btRemoveAll_comm {s : List K} {m o : List (K × V)}
    (hm : KeysSorted m) (ho : ∀ p ∈ o, p.1 ∉ s) :
    btAppend (btRemoveAll s m) o = btRemoveAll s (btAppend m o) := by
  induction o generalizing m with
  | nil => rfl
  | cons p o' ih =>
    show btAppend (btInsert p.1 p.2 (btRemoveAll s m)) o' = _
    rw [← btRemoveAll_btInsert_comm hm (ho p (List.mem_cons_self p o'))]
    rw [ih (KeysSorted_btInsert p.1 p.2 hm)
      (fun q hq => ho q (List.mem_cons_of_mem p hq))]
    rfl

/-- The well-formedness invariant of a `TxMap` working copy: overlay and
tombstones are key-sorted and their key sets are disjoint. -/
def MapWf (tv : TxMap K V) : Prop :=
  KeysSorted tv.tx_map ∧ SetSorted tv.tx_removed_keys ∧
    ∀ k, k ∈ tv.tx_map.map Prod.fst → k ∉ tv.tx_removed_keys

theorem MapWf_applyOp {tv : TxMap K V}
    (shared : VersionedValue (List (K × V)))
    (hwf : MapWf tv) (op : MapOp K V) : MapWf (tv.applyOp shared op) := by
  obtain ⟨hsm, hss, hdisj⟩ := hwf
  cases op with
  | insert k v =>
    refine ⟨KeysSorted_btInsert k v hsm, SetSorted_bsRemove k hss, ?_⟩
    intro k' hk' hmem
    rcases keys_btInsert_subset hk' with h' | h'
    · rw [h'] at hmem
      exact not_mem_bsRemove hss hmem
    · exact hdisj k' h' ((bsRemove_sublist k _).subset hmem)
  | remove k =>
    refine ⟨KeysSorted_btRemove k hsm, SetSorted_bsInsert k hss, ?_⟩
    intro k' hk' hmem
    rcases mem_bsInsert_elim hmem with h' | h'
    · rw [h'] at hk'
      exact not_mem_keys_btRemove hsm hk'
    · have : k' ∈ tv.tx_map.map Prod.fst :=
        (List.Sublist.map Prod.fst (btRemove_sublist k _)).subset hk'
      exact hdisj k' this h'
  | getMut k =>
    simp only [TxMap.applyOp]
    by_cases hov : btContains k tv.tx_map
    · simp only [TxMap.get_mut, hov, if_true]
      exact ⟨hsm, hss, hdisj⟩
    · by_cases htomb : bsContains k tv.tx_removed_keys
      · simp only [TxMap.get_mut, hov, htomb, if_false, if_true]
        exact ⟨hsm, hss, hdisj⟩
      · by_cases hver : tv.initial_version = shared.version
        · simp only [TxMap.get_mut, TxMap.read_map, hov, htomb, hver,
            if_false, Bind.bind, Except.bind, Pure.pure, Except.pure,
            ne_eq, not_true_eq_false]
          cases hget : btGet k shared.data with
          | none => exact ⟨hsm, hss, hdisj⟩
          | some v =>
            refine ⟨KeysSorted_btInsert k v hsm, hss, ?_⟩
            intro k' hk' hmem
            rcases keys_btInsert_subset hk' with h' | h'
            · rw [h'] at hmem
              rw [bsContains] at htomb
              simp at htomb
              exact htomb hmem
            · exact hdisj k' h' hmem
        · simp only [TxMap.get_mut, TxMap.read_map, hov, htomb, hver,
            if_false, Bind.bind, Except.bind, ne_eq, not_false_eq_true,
            if_true]
          exact ⟨hsm, hss, hdisj⟩
  | get k => exact ⟨hsm, hss, hdisj⟩
  | containsKey k => exact ⟨hsm, hss, hdisj⟩
  | firstKey => exact ⟨hsm, hss, hdisj⟩
  | iter => exact ⟨hsm, hss, hdisj⟩

theorem MapWf_applyOps (shared : VersionedValue (List (K × V)))
    (ops : List (MapOp K V)) {tv : TxMap K V}
    (hwf : MapWf tv) : MapWf (tv.applyOps shared ops) := by
  induction ops generalizing tv with
  | nil => exact hwf
  | cons op ops' ih => exact ih (MapWf_applyOp shared hwf op)

/-- C9: starting from `open_tx` and applying any sequence of map
operations, the overlay's key set and the tombstone set stay disjoint
(insert removes from the tombstones, remove deletes from the overlay,
`get_mut` only promotes non-tombstoned keys); consequently the commit of
the resulting delta is order-independent: removing the tombstoned keys and
then appending the overlay equals appending first and removing after. -/
theorem TxMap.ops_disjoint_commit_comm {K V : Type} [LinearOrder K]
    (shared : VersionedValue (List (K × V))) (ops : List (MapOp K V))
    (hs : KeysSorted shared.data) :
    (∀ k, k ∈ ((TxMap.open shared).applyOps shared ops).tx_map.map
        Prod.fst →
      k ∉ ((TxMap.open shared).applyOps shared ops).tx_removed_keys) ∧
    btAppend
        (btRemoveAll ((TxMap.open shared).applyOps shared
          ops).tx_removed_keys shared.data)
        ((TxMap.open shared).applyOps shared ops).tx_map =
      btRemoveAll ((TxMap.open shared).applyOps shared
          ops).tx_removed_keys
        (btAppend shared.data
          ((TxMap.open shared).applyOps shared ops).tx_map) := by
  have hwf0 : MapWf (TxMap.open shared) := by
    refine ⟨List.Pairwise.nil, List.Pairwise.nil, ?_⟩
    intro k hk
    simp [TxMap.open] at hk
  have hwf := MapWf_applyOps shared ops hwf0
  obtain ⟨hsm, hss, hdisj⟩ := hwf
  refine ⟨hdisj, ?_⟩
  exact btAppend_btRemoveAll_comm hs fun p hp =>
    hdisj p.1 (List.mem_map.mpr ⟨p, hp, rfl⟩)

/-- C9 witness: `insert 3`, `remove 1`, then a promoting `get_mut 2` leave
overlay keys `{2, 3}` disjoint from tombstones `{1}`, and the two commit
orders agree on shared `{1 ↦ 10, 2 ↦ 20}`. -/
theorem TxMap.ops_disjoint_commit_comm_witness :
    (2 ∉ (TxMap.applyOps (K := Nat) (V := Nat)
      (TxMap.open ⟨0, [(1, 10), (2, 20)]⟩) ⟨0, [(1, 10), (2, 20)]⟩
      [.insert 3 33, .remove 1, .getMut 2]).tx_removed_keys) ∧
    btAppend
        (btRemoveAll (TxMap.applyOps (K := Nat) (V := Nat)
          (TxMap.open ⟨0, [(1, 10), (2, 20)]⟩) ⟨0, [(1, 10), (2, 20)]⟩
          [.insert 3 33, .remove 1, .getMut 2]).tx_removed_keys
          [(1, 10), (2, 20)])
        (TxMap.applyOps (K := Nat) (V := Nat)
          (TxMap.open ⟨0, [(1, 10), (2, 20)]⟩) ⟨0, [(1, 10), (2, 20)]⟩
          [.insert 3 33, .remove 1, .getMut 2]).tx_map =
      btRemoveAll (TxMap.applyOps (K := Nat) (V := Nat)
          (TxMap.open ⟨0, [(1, 10), (2, 20)]⟩) ⟨0, [(1, 10), (2, 20)]⟩
          [.insert 3 33, .remove 1, .getMut 2]).tx_removed_keys
        (btAppend [(1, 10), (2, 20)]
          (TxMap.applyOps (K := Nat) (V := Nat)
            (TxMap.open ⟨0, [(1, 10), (2, 20)]⟩) ⟨0, [(1, 10), (2, 20)]⟩
            [.insert 3 33, .remove 1, .getMut 2]).tx_map) := by
  have h := TxMap.ops_disjoint_commit_comm (K := Nat) (V := Nat)
    ⟨0, [(1, 10), (2, 20)]⟩ [.insert 3 33, .remove 1, .getMut 2]
    (by unfold KeysSorted; decide)
  exact ⟨h.1 2 (by decide), h.2⟩

end NaiveStm
